import Mathlib

/-!
Verification of the UKV embedded store (`src/ukv_stl_embedded.cpp`) and the
paths modality (`src/modality_paths.cpp`) against their specification.

The C++ is shallowly embedded:
* `sequence_t = ssize_t` (64-bit signed) values are modelled as their 64-bit
  bit patterns, natural numbers `< 2^64`; the C++ signed comparison of two
  bit patterns is `sle` below, and the wrapping increment of the
  `std::atomic<ssize_t>` counter is `seqNext`.
* `unordered_map`s are modelled as association lists with unique keys;
  `located_key_t` (a `collection_t*` identity plus a key) becomes a pair of a
  collection identifier and a key.
* fallible operations return an `Option UkvError` alongside the state they
  produced, so that an error exit in the middle of a loop is observable.
-/

set_option linter.unusedVariables false

namespace Ukv

/-- Byte strings (`value_t`, `std::string_view`): lists of byte values. -/
abbrev Bytes := List Nat

/-- `2^64`, the modulus of 64-bit sequence arithmetic. -/
def seqMod : Nat := 2 ^ 64

/-- The signed 64-bit integer denoted by the bit pattern `x < 2^64`
(two's complement). -/
def toSigned (x : Nat) : Int :=
  if x < 2 ^ 63 then (x : Int) else (x : Int) - 2 ^ 64

/-- The C++ `<=` on `sequence_t` (signed comparison of 64-bit bit patterns). -/
def sle (a b : Nat) : Bool := decide (toSigned a ≤ toSigned b)

/-- Wrapping `++counter` on the 64-bit sequence cell. -/
def seqNext (s : Nat) : Nat := (s + 1) % seqMod

/-- `entry_was_overwritten` (ukv_stl_embedded.cpp:105-112), verbatim:
`transaction_sequence <= youngest_sequence ? (e >= t & e <= y) : (e >= t | e <= y)`
with all comparisons signed. -/
def entry_was_overwritten (entrySeq txnSeq youngestSeq : Nat) : Bool :=
  if sle txnSeq youngestSeq then sle txnSeq entrySeq && sle entrySeq youngestSeq
  else sle txnSeq entrySeq || sle entrySeq youngestSeq

/-- Collection identity: the C++ code identifies a collection by its
`collection_t*` pointer; we use an opaque identifier. -/
abbrev CollectionId := Nat

/-- `ukv_key_t` is `int64_t`; keys are opaque here, modelled as integers. -/
abbrev Key := Int

/-- `located_key_t`: a collection identity paired with a key. -/
structure LocatedKey where
  collection : CollectionId
  key : Key
deriving DecidableEq, Repr

/-- `sequenced_value_t`: value bytes plus the sequence number of the write
that produced them. -/
structure SequencedValue where
  data : Bytes
  sequence_number : Nat
deriving DecidableEq, Repr

/-- Lookup in an association list (models `unordered_map::find`). -/
def assocFind {α : Type} (k : LocatedKey) : List (LocatedKey × α) → Option α
  | [] => none
  | (k', v) :: rest => if k' = k then some v else assocFind k rest

/-- `unordered_map::insert_or_assign`: replace the mapping if the key is
present, append it otherwise. -/
def assocInsert {α : Type} (k : LocatedKey) (v : α) : List (LocatedKey × α) → List (LocatedKey × α)
  | [] => [(k, v)]
  | (k', v') :: rest => if k' = k then (k, v) :: rest else (k', v') :: assocInsert k v rest

/-- The database state: all collections' `pairs` maps flattened into one map
keyed by `located_key_t`, plus the `youngest_sequence` counter
(ukv_stl_embedded.cpp:76-96). -/
structure Db where
  pairs : List (LocatedKey × SequencedValue)
  youngest_sequence : Nat
deriving DecidableEq, Repr

/-- `txn_t` (ukv_stl_embedded.cpp:69-74): the read set `requested_keys`
(observed sequence numbers), the write buffer `new_values`, and the start
sequence. -/
structure Txn where
  requested_keys : List (LocatedKey × Nat)
  new_values : List (LocatedKey × Bytes)
  sequence_number : Nat
deriving DecidableEq, Repr

/-- The error outcomes of the embedded store that matter here. -/
inductive UkvError where
  /-- "Requested key was already overwritten since the start of the transaction!" -/
  | overwrittenSinceStart
  /-- "Can not commit same entry more than once!" -/
  | repeatCommit
  /-- "Incoming key collides with newer entry!" -/
  | collidesWithNewer
deriving DecidableEq, Repr

/-- One iteration of the `_ukv_write_head` loop (ukv_stl_embedded.cpp:180-206):
both branches stamp the entry with `++db.youngest_sequence` and store the
given bytes; there is no branch that erases a key. -/
def writeHeadOne (db : Db) (lk : LocatedKey) (val : Bytes) : Db :=
  let y := seqNext db.youngest_sequence
  { pairs := assocInsert lk ⟨val, y⟩ db.pairs, youngest_sequence := y }

/-- `_ukv_write_head` (ukv_stl_embedded.cpp:167-208): a batch of rows, each a
located key and its value bytes, applied in input order. -/
def ukv_write_head (db : Db) (tasks : List (LocatedKey × Bytes)) : Db :=
  tasks.foldl (fun d t => writeHeadOne d t.1 t.2) db

/-- One output row of `_ukv_read_head`: `value = none` models the NULL
pointer the code stores for a missing key, `some bytes` the pointer into the
tape for a present one; `length` is the reported length. -/
structure ReadResult where
  value : Option Bytes
  length : Nat
deriving DecidableEq, Repr

/-- `_ukv_read_head` for one key (ukv_stl_embedded.cpp:270-284): a present
entry exports its bytes (possibly zero of them) and a non-null pointer; a
missing one exports the NULL pointer and length 0. -/
def ukv_read_head (db : Db) (lk : LocatedKey) : ReadResult :=
  match assocFind lk db.pairs with
  | some sv => ⟨some sv.data, sv.data.length⟩
  | none => ⟨none, 0⟩

/-- `ukv_txn_begin` (ukv_stl_embedded.cpp:579-602): a zero sequence hint
allocates `++db.youngest_sequence` as the start sequence, a non-zero hint is
used as given and the counter is untouched; either way the (possibly reused)
handle has both its sets cleared. -/
def ukv_txn_begin (db : Db) (hint : Nat) (oldTxn : Txn) : Db × Txn :=
  if hint ≠ 0 then
    (db, { requested_keys := [], new_values := [], sequence_number := hint % seqMod })
  else
    let y := seqNext db.youngest_sequence
    ({ db with youngest_sequence := y },
     { requested_keys := [], new_values := [], sequence_number := y })

/-- Step 1 of `ukv_txn_commit` (ukv_stl_embedded.cpp:617-626): a fetched key
whose entry still exists but carries a different sequence aborts; an absent
entry is not checked. -/
def checkRequested (db : Db) : List (LocatedKey × Nat) → Option UkvError
  | [] => none
  | (lk, seqAtRead) :: rest =>
    match assocFind lk db.pairs with
    | some sv =>
      if sv.sequence_number ≠ seqAtRead then some .overwrittenSinceStart
      else checkRequested db rest
    | none => checkRequested db rest

/-- Step 2 of `ukv_txn_commit` (ukv_stl_embedded.cpp:629-644): an entry whose
sequence equals the transaction's is a repeat commit; one satisfying
`entry_was_overwritten` is a conflict. -/
def checkNewValues (db : Db) (txnSeq youngest : Nat) : List (LocatedKey × Bytes) → Option UkvError
  | [] => none
  | (lk, _) :: rest =>
    match assocFind lk db.pairs with
    | some sv =>
      if sv.sequence_number = txnSeq then some .repeatCommit
      else if entry_was_overwritten sv.sequence_number txnSeq youngest then some .collidesWithNewer
      else checkNewValues db txnSeq youngest rest
    | none => checkNewValues db txnSeq youngest rest

/-- Step 4 of `ukv_txn_commit` (ukv_stl_embedded.cpp:658-680): every buffered
write is stored with sequence `txn.sequence_number`; the erase branch for
empty values is commented out in the source, so empty buffers are stored as
empty values. -/
def applyNewValues (txnSeq : Nat) (pairs : List (LocatedKey × SequencedValue)) :
    List (LocatedKey × Bytes) → List (LocatedKey × SequencedValue)
  | [] => pairs
  | (lk, v) :: rest => applyNewValues txnSeq (assocInsert lk ⟨v, txnSeq⟩ pairs) rest

/-- `ukv_txn_commit` (ukv_stl_embedded.cpp:604-681). The collection
reservation of step 3 does not change any entry and is modelled as a no-op.
Returns the error (if any) together with the database state at exit; the
transaction object is not modified on any error path. -/
def ukv_txn_commit (db : Db) (txn : Txn) : Option UkvError × Db :=
  let y := db.youngest_sequence
  match checkRequested db txn.requested_keys with
  | some e => (some e, db)
  | none =>
    match checkNewValues db txn.sequence_number y txn.new_values with
    | some e => (some e, db)
    | none => (none, { db with pairs := applyNewValues txn.sequence_number db.pairs txn.new_values })

/-- Size-estimation pass of `_ukv_read_txn` (ukv_stl_embedded.cpp:377-398):
the first key that is outside the transaction's write buffer, present in the
store and `entry_was_overwritten` aborts the whole read. -/
def readTxnCheck (db : Db) (txn : Txn) (youngest : Nat) : List LocatedKey → Option UkvError
  | [] => none
  | lk :: rest =>
    match assocFind lk txn.new_values with
    | some _ => readTxnCheck db txn youngest rest
    | none =>
      match assocFind lk db.pairs with
      | some sv =>
        if entry_was_overwritten sv.sequence_number txn.sequence_number youngest then
          some .overwrittenSinceStart
        else readTxnCheck db txn youngest rest
      | none => readTxnCheck db txn youngest rest

/-- Export pass of `_ukv_read_txn` (ukv_stl_embedded.cpp:416-439): buffered
values are returned from the transaction, the rest from the store, missing
keys as NULL/0. -/
def readTxnExport (db : Db) (txn : Txn) : List LocatedKey → List ReadResult
  | [] => []
  | lk :: rest =>
    (match assocFind lk txn.new_values with
     | some v => ⟨some v, v.length⟩
     | none =>
       match assocFind lk db.pairs with
       | some sv => ⟨some sv.data, sv.data.length⟩
       | none => ⟨none, 0⟩) :: readTxnExport db txn rest

/-- `_ukv_read_txn` (ukv_stl_embedded.cpp:360-440). The options bitmask is
accepted as in C (the source consults it only for co-located collection
addressing, which `LocatedKey` already resolves); the transaction object is
returned so that any mutation of it would be visible — the source never
touches `requested_keys` on any path. -/
def ukv_read_txn (db : Db) (txn : Txn) (keys : List LocatedKey) (options : Nat) :
    Option UkvError × List ReadResult × Txn :=
  match readTxnCheck db txn db.youngest_sequence keys with
  | some e => (some e, [], txn)
  | none => (none, readTxnExport db txn keys, txn)

/-!
The paths modality (`src/modality_paths.cpp`). A bucket is the value of one
hashed key, with byte layout (modality_paths.cpp:8-13 and §3 of the spec):
header `N : u32`, then `N` key-length counters, `N` value-length counters,
the concatenated names, the concatenated values. We model the five regions
structurally; the byte offsets the C code computes (`counter_size_k * …`,
`bytes_in_header_k + …`) address exactly these regions, which a well-formed
bucket keeps in this order.
-/

/-- A bucket: the stored header `count` and the four regions. An
absent/empty slot is `⟨0, [], [], [], []⟩`. -/
structure Bucket where
  count : Nat
  keyLens : List Nat
  valLens : List Nat
  keyBytes : Bytes
  valBytes : Bytes
deriving DecidableEq, Repr

/-- The `bucket = {}` the code produces when the last member is removed. -/
def emptyBucket : Bucket := ⟨0, [], [], [], []⟩

/-- `get_bucket_size` (modality_paths.cpp:57-60): the stored header. -/
def get_bucket_size (b : Bucket) : Nat := b.count

/-- Cut a byte stream into consecutive segments of the given lengths
(the decoding performed by `consecutive_strs_iterator_t` /
`consecutive_bins_iterator_t`, modality_paths.cpp:67-78). -/
def segments : List Nat → Bytes → List Bytes
  | [], _ => []
  | l :: ls, bytes => bytes.take l :: segments ls (bytes.drop l)

/-- The (name, value) members of a bucket, in bucket order, as
`for_each_in_bucket` (modality_paths.cpp:88-97) enumerates them. -/
def bucketMembers (b : Bucket) : List (Bytes × Bytes) :=
  List.zip (segments b.keyLens b.keyBytes) (segments b.valLens b.valBytes)

/-- The bucket whose regions encode exactly the member list `ms`; these are
precisely the well-formed bucket byte sequences. -/
def mkBucket (ms : List (Bytes × Bytes)) : Bucket :=
  ⟨ms.length,
   ms.map (fun m => m.1.length),
   ms.map (fun m => m.2.length),
   (ms.map Prod.fst).flatten,
   (ms.map Prod.snd).flatten⟩

/-- The callback fold of `find_in_bucket` (modality_paths.cpp:99-106): the
result is overwritten on every matching member, so the last match (with its
index) wins. -/
def findLoop (key : Bytes) : Nat → List (Bytes × Bytes) →
    Option (Nat × Bytes × Bytes) → Option (Nat × Bytes × Bytes)
  | _, [], acc => acc
  | i, m :: ms, acc =>
    findLoop key (i + 1) ms (if m.1 = key then some (i, m.1, m.2) else acc)

/-- `find_in_bucket` (modality_paths.cpp:99-106). -/
def find_in_bucket (b : Bucket) (key : Bytes) : Option (Nat × Bytes × Bytes) :=
  findLoop key 0 (bucketMembers b) none

/-- Reference first-match lookup over a member list; used to state that
members other than the affected one keep their values (for buckets with
unique names it agrees with `find_in_bucket`). -/
def lookupName (key : Bytes) : List (Bytes × Bytes) → Option Bytes
  | [] => none
  | m :: ms => if m.1 = key then some m.2 else lookupName key ms

/-- Remove `len` bytes starting at `off` (the `remove_part` memmove,
modality_paths.cpp:123-128, applied to a region). -/
def spliceOut (bytes : Bytes) (off len : Nat) : Bytes :=
  bytes.take off ++ bytes.drop (off + len)

/-- Byte offset of the `i`-th segment in a region with lengths `ls`. -/
def sumTake (ls : List Nat) (i : Nat) : Nat := (ls.take i).sum

/-- `remove_from_bucket` (modality_paths.cpp:130-157): absent keys leave the
bucket unchanged; a singleton bucket becomes the empty view; otherwise the
member's value bytes, key bytes, value counter and key counter are spliced
out and the header is decremented. -/
def remove_from_bucket (b : Bucket) (key : Bytes) : Bucket :=
  match find_in_bucket b key with
  | none => b
  | some (idx, k, v) =>
    if get_bucket_size b = 1 then emptyBucket
    else
      ⟨b.count - 1,
       b.keyLens.eraseIdx idx,
       b.valLens.eraseIdx idx,
       spliceOut b.keyBytes (sumTake b.keyLens idx) k.length,
       spliceOut b.valBytes (sumTake b.valLens idx) v.length⟩

/-- `upsert_in_bucket` (modality_paths.cpp:159-214), including its handling
of the freshly allocated counter arrays: the copy loop writes each surviving
member's counters at the member's OLD index `i` while packing the bytes
contiguously, and the final write puts the new entry's counters at index
`new_size - 1`. A counter slot that no write reaches keeps whatever the
arena allocation left there; `junk` is that indeterminate content. -/
def upsert_in_bucket (junk : Nat) (b : Bucket) (key val : Bytes) : Bucket :=
  let oldSize := get_bucket_size b
  let found := find_in_bucket b key
  let isMissing := found.isNone
  let oldIdx := match found with | some (i, _, _) => i | none => 0
  let newSize := oldSize + (if isMissing then 1 else 0)
  let ms := bucketMembers b
  let keep : Nat → Bool := fun i => isMissing || decide (i ≠ oldIdx)
  let newKeyLens := (List.range newSize).map (fun i =>
    if i = newSize - 1 then key.length
    else if i < oldSize ∧ keep i then ((ms.get? i).map (fun m => m.1.length)).getD junk
    else junk)
  let newValLens := (List.range newSize).map (fun i =>
    if i = newSize - 1 then val.length
    else if i < oldSize ∧ keep i then ((ms.get? i).map (fun m => m.2.length)).getD junk
    else junk)
  let kept := (ms.enum.filter (fun p => keep p.1)).map Prod.snd
  ⟨newSize,
   newKeyLens,
   newValLens,
   (kept.map Prod.fst).flatten ++ key,
   (kept.map Prod.snd).flatten ++ val⟩

/-!
`ukv_paths_read` (modality_paths.cpp:351-458): output offsets. The arena
helper `alloc_or_dummy` lives in `helpers/pmr.hpp`, which is not part of
src/.
-/

/-- Modelled from the spec: `alloc_or_dummy` (helpers/pmr.hpp, not under
src/) hands out a buffer with exactly the requested number of cells — the
spec's tape-offsets contract (§6) expects the caller to size it so that all
writes land in bounds. -/
def alloc_or_dummy (n : Nat) : Array (Option Nat) := Array.mkArray n none

/-- Modelled from the spec: a store into an allocated buffer; an index at or
past the allocated size is out of bounds and has no defined result. -/
def boundedSet (a : Array (Option Nat)) (i v : Nat) : Option (Array (Option Nat)) :=
  if h : i < a.size then some (a.set ⟨i, h⟩ (some v)) else none

/-- The per-task loop of `ukv_paths_read` (modality_paths.cpp:434-453)
restricted to the offsets output: task `i` (whose found value length is
`some len`, or `none` when the path is absent) stores the running exported
volume at `offsets[i]`; found values then grow the volume. -/
def pathsReadWriteOffsets : List (Option Nat) → Nat → Nat → Array (Option Nat) →
    Option (Array (Option Nat) × Nat)
  | [], _, vol, offs => some (offs, vol)
  | t :: rest, i, vol, offs =>
    match boundedSet offs i vol with
    | none => none
    | some offs' => pathsReadWriteOffsets rest (i + 1) (vol + t.getD 0) offs'

/-- The offsets output of `ukv_paths_read`: the buffer is allocated with
`c_tasks_count` cells (modality_paths.cpp:432), the loop fills indices
`0 … c_tasks_count - 1`, and the epilogue stores the total exported volume at
index `c_tasks_count` (modality_paths.cpp:455). -/
def ukv_paths_read_offsets (tasks : List (Option Nat)) : Option (Array (Option Nat)) :=
  match pathsReadWriteOffsets tasks 0 0 (alloc_or_dummy tasks.length) with
  | none => none
  | some (offs, vol) => boundedSet offs tasks.length vol

/-!
`ukv_paths_match` / `scan_one_collection_one_range`
(modality_paths.cpp:465-562). The underlying `ukv_scan` is not implemented
by the embedded store in src/ (its header says "No support for range
queries"), so it is modelled from the spec, and the string hash `H` is a
parameter (the spec fixes only that it is deterministic).
-/

/-- `starts_with` (modality_paths.cpp:108-110). -/
def starts_with (s pfx : Bytes) : Bool :=
  decide (pfx.length ≤ s.length) && decide (s.take pfx.length = pfx)

/-- Modelled from the spec: `ukv_scan` (§4.1) — ordered forward scan of a
collection (here an ascending association list from bucket key to bucket)
starting at `min_key` inclusive, from the smallest key when `min_key` is the
`ukv_key_unknown_k` sentinel (`none`), returning up to `max_count` keys. -/
def ukv_scan_model (col : List (Key × Bucket)) (minKey : Option Key) (maxCount : Nat) : List Key :=
  ((col.map Prod.fst).filter (fun k =>
    match minKey with
    | none => true
    | some m => decide (m ≤ k))).take maxCount

/-- Read one bucket of the collection (the batched `ukv_read` over the found
bucket keys, modality_paths.cpp:513-527). -/
def readBucket (col : List (Key × Bucket)) (k : Key) : Bucket :=
  match col.find? (fun kv => kv.1 = k) with
  | some kv => kv.2
  | none => emptyBucket

/-- The mutable state of the member callback in
`scan_one_collection_one_range`: the paths emitted so far, the `previous`
cursor, and the `has_reached_previous` flag. -/
structure ScanAcc where
  found : List Bytes
  prev : Bytes
  reached : Bool
deriving DecidableEq, Repr

/-- The member callback of `scan_one_collection_one_range`
(modality_paths.cpp:532-557), folded over one bucket's members. -/
def scanBucketMembers (pfx : Bytes) (maxCount : Nat) (acc : ScanAcc)
    (ms : List (Bytes × Bytes)) : ScanAcc :=
  ms.foldl (fun a m =>
    if ¬ starts_with m.1 pfx then a
    else if m.1 = a.prev then { a with reached := true }
    else if ¬ a.reached then a
    else if maxCount ≤ a.found.length then a
    else { found := a.found ++ [m.1], prev := m.1, reached := a.reached }) acc

/-- The `while (found_paths < max_count)` loop of
`scan_one_collection_one_range` (modality_paths.cpp:483-559), with explicit
fuel for termination (the C loop re-issues the same scan when it makes no
progress). Each round: when `previous` is empty the code passes
`hash(previous)` as the scan's start key, otherwise the unknown-key sentinel
(modality_paths.cpp:484); a scan returning at most one bucket key ends the
loop; otherwise every found bucket's members run through the callback. -/
def scanRangeLoop (hashFn : Bytes → Key) (col : List (Key × Bucket)) (pfx : Bytes)
    (maxCount : Nat) : Nat → ScanAcc → ScanAcc
  | 0, acc => acc
  | fuel + 1, acc =>
    if maxCount ≤ acc.found.length then acc
    else
      let minKey : Option Key := if acc.prev = [] then some (hashFn acc.prev) else none
      let keys := ukv_scan_model col minKey maxCount
      if keys.length ≤ 1 then acc
      else
        let acc' := keys.foldl
          (fun a k => scanBucketMembers pfx maxCount a (bucketMembers (readBucket col k))) acc
        scanRangeLoop hashFn col pfx maxCount fuel acc'

/-- `scan_one_collection_one_range` (modality_paths.cpp:465-562): returns
the emitted paths and their count (`found_paths`). `has_reached_previous`
starts as `previous.empty()` (modality_paths.cpp:482). -/
def scan_one_collection_one_range (fuel : Nat) (hashFn : Bytes → Key)
    (col : List (Key × Bucket)) (pfx prev : Bytes) (maxCount : Nat) : List Bytes × Nat :=
  let acc := scanRangeLoop hashFn col pfx maxCount fuel ⟨[], prev, prev = []⟩
  (acc.found, acc.found.length)

/-! Helper lemmas about the association-list primitives. -/

theorem assocFind_assocInsert_self {α : Type} (k : LocatedKey) (v : α) :
    ∀ l : List (LocatedKey × α), assocFind k (assocInsert k v l) = some v := by
  intro l
  induction l with
  | nil => simp [assocInsert, assocFind]
  | cons hd tl ih =>
    by_cases h : hd.1 = k
    · simp [assocInsert, assocFind, h]
    · simpa [assocInsert, assocFind, h] using ih

theorem assocFind_assocInsert_ne {α : Type} (k k' : LocatedKey) (v : α) (h : k' ≠ k) :
    ∀ l : List (LocatedKey × α), assocFind k' (assocInsert k v l) = assocFind k' l := by
  have h2 : ¬ k = k' := fun he => h he.symm
  intro l
  induction l with
  | nil => simp [assocInsert, assocFind, h2]
  | cons hd tl ih =>
    by_cases hk : hd.1 = k
    · subst hk
      simp [assocInsert, assocFind, h2]
    · simp only [assocInsert, if_neg hk]
      by_cases hk' : hd.1 = k'
      · simp [assocFind, hk']
      · simp [assocFind, hk', ih]

theorem assocFind_isSome_assocInsert {α : Type} (k k' : LocatedKey) (v : α)
    (l : List (LocatedKey × α)) (h : (assocFind k' l).isSome = true) :
    (assocFind k' (assocInsert k v l)).isSome = true := by
  by_cases hk : k' = k
  · subst hk; simp [assocFind_assocInsert_self]
  · rwa [assocFind_assocInsert_ne k k' v hk]

theorem assocFind_applyNewValues_not_mem (s : Nat) (lk : LocatedKey) :
    ∀ (ws : List (LocatedKey × Bytes)) (ps : List (LocatedKey × SequencedValue)),
      lk ∉ ws.map Prod.fst →
      assocFind lk (applyNewValues s ps ws) = assocFind lk ps := by
  intro ws
  induction ws with
  | nil => intro ps _; rfl
  | cons hd tl ih =>
    intro ps hmem
    simp only [List.map_cons, List.mem_cons, not_or] at hmem
    show assocFind lk (applyNewValues s (assocInsert hd.1 ⟨hd.2, s⟩ ps) tl) = _
    rw [ih _ hmem.2, assocFind_assocInsert_ne _ _ _ hmem.1]

theorem assocFind_applyNewValues_mem (s : Nat) (lk : LocatedKey) (v : Bytes) :
    ∀ (ws : List (LocatedKey × Bytes)) (ps : List (LocatedKey × SequencedValue)),
      (ws.map Prod.fst).Nodup → (lk, v) ∈ ws →
      assocFind lk (applyNewValues s ps ws) = some ⟨v, s⟩ := by
  intro ws
  induction ws with
  | nil => intro ps _ h; cases h
  | cons hd tl ih =>
    intro ps hnd hmem
    simp only [List.map_cons, List.nodup_cons] at hnd
    rcases List.mem_cons.mp hmem with heq | htl
    · subst heq
      show assocFind lk (applyNewValues s (assocInsert lk ⟨v, s⟩ ps) tl) = _
      rw [assocFind_applyNewValues_not_mem s lk tl _ hnd.1,
        assocFind_assocInsert_self]
    · exact ih _ hnd.2 htl

/-! Facts about `ukv_txn_commit` shared by several results below. -/

theorem commit_youngest (db : Db) (txn : Txn) :
    (ukv_txn_commit db txn).2.youngest_sequence = db.youngest_sequence := by
  cases hr : checkRequested db txn.requested_keys with
  | some e => simp [ukv_txn_commit, hr]
  | none =>
    cases hn : checkNewValues db txn.sequence_number db.youngest_sequence txn.new_values with
    | some e => simp [ukv_txn_commit, hr, hn]
    | none => simp [ukv_txn_commit, hr, hn]

theorem commit_err_db (db : Db) (txn : Txn) (h : (ukv_txn_commit db txn).1.isSome = true) :
    (ukv_txn_commit db txn).2 = db := by
  cases hr : checkRequested db txn.requested_keys with
  | some e => simp [ukv_txn_commit, hr]
  | none =>
    cases hn : checkNewValues db txn.sequence_number db.youngest_sequence txn.new_values with
    | some e => simp [ukv_txn_commit, hr, hn]
    | none => simp [ukv_txn_commit, hr, hn] at h

theorem commit_ok_applies (db : Db) (txn : Txn) (h : (ukv_txn_commit db txn).1 = none)
    (hnd : (txn.new_values.map Prod.fst).Nodup) :
    ∀ lk v, (lk, v) ∈ txn.new_values →
      assocFind lk (ukv_txn_commit db txn).2.pairs = some ⟨v, txn.sequence_number⟩ := by
  intro lk v hmem
  cases hr : checkRequested db txn.requested_keys with
  | some e => simp [ukv_txn_commit, hr] at h
  | none =>
    cases hn : checkNewValues db txn.sequence_number db.youngest_sequence txn.new_values with
    | some e => simp [ukv_txn_commit, hr, hn] at h
    | none =>
      simp only [ukv_txn_commit, hr, hn]
      simpa using assocFind_applyNewValues_mem txn.sequence_number lk v txn.new_values
        db.pairs hnd hmem

/-- Claim C1, counterexample: a transaction begun at sequence 2 (the
database's `youngest_sequence` is 2) commits one write successfully, yet
`youngest_sequence` after the commit is still 2, not 2 + 1: `ukv_txn_commit`
never increments the counter. -/
theorem C1_counterexample :
    (ukv_txn_commit ⟨[(⟨0, 1⟩, ⟨[104], 1⟩)], 2⟩ ⟨[], [(⟨0, 2⟩, [98])], 2⟩).1 = none
    ∧ (ukv_txn_commit ⟨[(⟨0, 1⟩, ⟨[104], 1⟩)], 2⟩ ⟨[], [(⟨0, 2⟩, [98])], 2⟩).2.youngest_sequence
        = 2
    ∧ (2 : Nat) ≠ 2 + 1 := by decide

/-- Claim C1, amended: a successful `ukv_txn_commit` leaves
`youngest_sequence` exactly as it was — the fresh sequence is allocated at
`ukv_txn_begin`, not at commit — and stamps every buffered write with the
transaction's start sequence `txn.sequence_number`, regardless of the number
of writes. -/
theorem C1_commit_stamps_with_start_seq (db : Db) (txn : Txn)
    (h : (ukv_txn_commit db txn).1 = none) (hnd : (txn.new_values.map Prod.fst).Nodup) :
    (ukv_txn_commit db txn).2.youngest_sequence = db.youngest_sequence ∧
    ∀ lk v, (lk, v) ∈ txn.new_values →
      assocFind lk (ukv_txn_commit db txn).2.pairs = some ⟨v, txn.sequence_number⟩ :=
  ⟨commit_youngest db txn, commit_ok_applies db txn h hnd⟩

/-- Witness for C1: the amended theorem evaluated on the concrete commit
used above. -/
theorem C1_commit_stamps_with_start_seq_witness :
    (ukv_txn_commit ⟨[(⟨0, 1⟩, ⟨[104], 1⟩)], 2⟩ ⟨[], [(⟨0, 2⟩, [98])], 2⟩).2.youngest_sequence
      = 2 :=
  (C1_commit_stamps_with_start_seq ⟨[(⟨0, 1⟩, ⟨[104], 1⟩)], 2⟩ ⟨[], [(⟨0, 2⟩, [98])], 2⟩
    (by decide) (by decide)).1

/-- Claim C2, counterexample: at `entry_seq = start = youngest = 5` the code
returns `true`, but `5` does not lie in the claimed half-open interval
`(5, 5]` — the predicate is inclusive of the start sequence, so an entry
whose sequence equals the transaction's start sequence IS reported as
overwritten. -/
theorem C2_counterexample :
    entry_was_overwritten 5 5 5 = true ∧ ¬ (5 < 5 ∧ 5 ≤ 5) := by decide

/-- Claim C2, amended: for all 64-bit sequence bit patterns, the predicate
returns `true` exactly when `entry_seq` lies in the CLOSED interval
`[start, youngest]` computed modulo 2⁶⁴ (equivalently:
`(entry − start) mod 2⁶⁴ ≤ (youngest − start) mod 2⁶⁴`); in particular an
entry whose sequence equals the start sequence is always reported as
overwritten (commit screens that case separately as a repeat commit). -/
theorem C2_overwrite_interval_amended (e s y : Nat)
    (he : e < seqMod) (hs : s < seqMod) (hy : y < seqMod) :
    (entry_was_overwritten e s y = true ↔
      (e + seqMod - s) % seqMod ≤ (y + seqMod - s) % seqMod)
    ∧ entry_was_overwritten s s y = true := by
  have h63 : (2 : Nat) ^ 63 = 9223372036854775808 := by norm_num
  have h64i : (2 : Int) ^ 64 = 18446744073709551616 := by norm_num
  have hM : seqMod = 18446744073709551616 := by norm_num [seqMod]
  have hsle : ∀ a b : Nat, (sle a b = true) ↔ (toSigned a ≤ toSigned b) := by
    intro a b; simp [sle]
  rw [hM] at he hs hy
  constructor
  · show (if sle s y = true then sle s e && sle e y else sle s e || sle e y) = true ↔ _
    rw [apply_ite (fun b : Bool => b = true)]
    simp only [Bool.and_eq_true, Bool.or_eq_true, hsle, toSigned]
    rw [hM]
    simp only [h63, h64i]
    split_ifs <;> omega
  · have hss : sle s s = true := by simp [hsle]
    by_cases hsy : sle s y = true
    · simp [entry_was_overwritten, hsy, hss]
    · simp [entry_was_overwritten, hsy, hss]

/-- Witness for C2: the amended characterization at (3, 2, 7). -/
theorem C2_overwrite_interval_amended_witness :
    (entry_was_overwritten 3 2 7 = true ↔
      (3 + seqMod - 2) % seqMod ≤ (7 + seqMod - 2) % seqMod)
    ∧ entry_was_overwritten 2 2 7 = true :=
  C2_overwrite_interval_amended 3 2 7 (by norm_num [seqMod]) (by norm_num [seqMod])
    (by norm_num [seqMod])

/-- Claim C3: commit is atomic — on any error exit the database (entries and
all sequence numbers, `youngest_sequence` included) is exactly the input
state and the transaction's buffers were never consumed, while on success
every buffered write is present with the commit stamp; there is no partial
outcome. -/
theorem C3_commit_atomicity (db : Db) (txn : Txn) :
    ((ukv_txn_commit db txn).1.isSome = true → (ukv_txn_commit db txn).2 = db) ∧
    ((ukv_txn_commit db txn).1 = none → (txn.new_values.map Prod.fst).Nodup →
      ∀ lk v, (lk, v) ∈ txn.new_values →
        assocFind lk (ukv_txn_commit db txn).2.pairs = some ⟨v, txn.sequence_number⟩) :=
  ⟨commit_err_db db txn, fun h hnd => commit_ok_applies db txn h hnd⟩

/-- Witness for C3: the success arm evaluated on a concrete commit. -/
theorem C3_commit_atomicity_witness :
    assocFind ⟨0, 2⟩
        (ukv_txn_commit ⟨[(⟨0, 1⟩, ⟨[104], 1⟩)], 2⟩ ⟨[], [(⟨0, 2⟩, [98])], 2⟩).2.pairs
      = some ⟨[98], 2⟩ :=
  (C3_commit_atomicity ⟨[(⟨0, 1⟩, ⟨[104], 1⟩)], 2⟩ ⟨[], [(⟨0, 2⟩, [98])], 2⟩).2
    (by decide) (by decide) ⟨0, 2⟩ [98] (by decide)

/-- Claim C4: the write path of the embedded store has no delete branch at
all — there is no presence input, and the closest expressible "delete"
(writing a zero-length row over the existing key 34) leaves the key present:
the subsequent read reports a non-null value (presence = 1) of length 0, so
no read after any write can report the claimed presence = 0. -/
theorem C4_no_delete_branch :
    (ukv_read_head (ukv_write_head ⟨[(⟨0, 34⟩, ⟨[104], 1⟩)], 1⟩ [(⟨0, 34⟩, [])]) ⟨0, 34⟩).value
      = some []
    ∧ (ukv_read_head (ukv_write_head ⟨[(⟨0, 34⟩, ⟨[104], 1⟩)], 1⟩ [(⟨0, 34⟩, [])]) ⟨0, 34⟩).length
      = 0 := by decide

/-- Claim C7, counterexample: a transactional read that succeeds and
observes entry (collection 0, key 1, sequence 1) leaves the transaction's
read set empty under every options bitmask (all four option flags of the
embedded store span 0..15) — no option appends to `requested_keys`. -/
theorem C7_counterexample :
    (ukv_read_txn ⟨[(⟨0, 1⟩, ⟨[104], 1⟩)], 2⟩ ⟨[], [], 2⟩ [⟨0, 1⟩] 1).1 = none
    ∧ (ukv_read_txn ⟨[(⟨0, 1⟩, ⟨[104], 1⟩)], 2⟩ ⟨[], [], 2⟩ [⟨0, 1⟩] 1).2.1
        = [⟨some [104], 1⟩]
    ∧ ((List.range 16).all fun o =>
        (ukv_read_txn ⟨[(⟨0, 1⟩, ⟨[104], 1⟩)], 2⟩ ⟨[], [], 2⟩ [⟨0, 1⟩] o).2.2.requested_keys.isEmpty)
      = true := by decide

/-- Claim C7, amended: `_ukv_read_txn` never modifies the transaction (in
particular never appends an observed (collection, key, sequence) triple to
`requested_keys`), whatever options are passed — the embedded store has no
TRACK_READS flag, and the read result is options-independent; read-time
validation instead rejects, immediately, any entry already overwritten since
the transaction's start. -/
theorem C7_reads_never_tracked (db : Db) (txn : Txn) (keys : List LocatedKey) (options : Nat) :
    (ukv_read_txn db txn keys options).2.2 = txn ∧
    ukv_read_txn db txn keys options = ukv_read_txn db txn keys 0 := by
  constructor
  · cases h : readTxnCheck db txn db.youngest_sequence keys <;> simp [ukv_read_txn, h]
  · rfl

/-- The offsets buffer's size is invariant across the per-task writes of
`ukv_paths_read`. -/
theorem size_pathsReadWriteOffsets :
    ∀ (ts : List (Option Nat)) (i vol : Nat) (offs offs' : Array (Option Nat)) (vol' : Nat),
      pathsReadWriteOffsets ts i vol offs = some (offs', vol') → offs'.size = offs.size := by
  intro ts
  induction ts with
  | nil =>
    intro i vol offs offs' vol' h
    simp only [pathsReadWriteOffsets, Option.some.injEq, Prod.mk.injEq] at h
    rw [← h.1]
  | cons t rest ih =>
    intro i vol offs offs' vol' h
    simp only [pathsReadWriteOffsets] at h
    cases hb : boundedSet offs i vol with
    | none => rw [hb] at h; simp at h
    | some o2 =>
      rw [hb] at h
      have h2 := ih (i + 1) (vol + t.getD 0) o2 offs' vol' h
      have hsz : o2.size = offs.size := by
        simp only [boundedSet] at hb
        split at hb
        · cases hb; simp
        · cases hb
      omega

/-- Claim C9: `ukv_paths_read` allocates `c_tasks_count` offset cells but
stores the final, (N+1)-th offset at index `c_tasks_count` — one past the
end of the allocation. The out-of-bounds store is reached on EVERY call,
whatever the tasks are. -/
theorem C9_final_offset_out_of_bounds (tasks : List (Option Nat)) :
    ukv_paths_read_offsets tasks = none := by
  cases h : pathsReadWriteOffsets tasks 0 0 (alloc_or_dummy tasks.length) with
  | none => simp [ukv_paths_read_offsets, h]
  | some p =>
    have hsz : p.1.size = tasks.length := by
      simpa [alloc_or_dummy] using
        size_pathsReadWriteOffsets tasks 0 0 (alloc_or_dummy tasks.length) p.1 p.2 h
    simp [ukv_paths_read_offsets, h, boundedSet, hsz]

/-- Claim C10: `ukv_txn_begin` with a zero hint advances `youngest_sequence`
by exactly one (modulo 2⁶⁴) and starts the transaction at the incremented
value; a non-zero hint is taken verbatim and the counter (indeed the whole
database) is untouched; in both cases the reused handle's read and write
sets are cleared. -/
theorem C10_txn_begin_allocates (db : Db) (oldTxn : Txn) (hint : Nat) (h : hint < seqMod) :
    (hint = 0 →
      (ukv_txn_begin db hint oldTxn).1.youngest_sequence = (db.youngest_sequence + 1) % seqMod ∧
      (ukv_txn_begin db hint oldTxn).2.sequence_number = (db.youngest_sequence + 1) % seqMod) ∧
    (hint ≠ 0 →
      (ukv_txn_begin db hint oldTxn).1 = db ∧
      (ukv_txn_begin db hint oldTxn).2.sequence_number = hint) ∧
    (ukv_txn_begin db hint oldTxn).2.requested_keys = [] ∧
    (ukv_txn_begin db hint oldTxn).2.new_values = [] := by
  by_cases h0 : hint = 0
  · subst h0; simp [ukv_txn_begin, seqNext]
  · simp [ukv_txn_begin, h0, Nat.mod_eq_of_lt h]

/-- Witness for C10: begin with hint 0 on a database at sequence 3, and with
hint 7 on the same database. -/
theorem C10_txn_begin_allocates_witness :
    ((ukv_txn_begin ⟨[], 3⟩ 0 ⟨[], [], 0⟩).1.youngest_sequence = (3 + 1) % seqMod ∧
      (ukv_txn_begin ⟨[], 3⟩ 0 ⟨[], [], 0⟩).2.sequence_number = (3 + 1) % seqMod) ∧
    ((ukv_txn_begin ⟨[], 3⟩ 7 ⟨[], [], 0⟩).1 = (⟨[], 3⟩ : Db) ∧
      (ukv_txn_begin ⟨[], 3⟩ 7 ⟨[], [], 0⟩).2.sequence_number = 7) :=
  ⟨(C10_txn_begin_allocates ⟨[], 3⟩ ⟨[], [], 0⟩ 0 (by norm_num [seqMod])).1 rfl,
   (C10_txn_begin_allocates ⟨[], 3⟩ ⟨[], [], 0⟩ 7 (by norm_num [seqMod])).2.1 (by norm_num)⟩

/-! Decoding lemmas for buckets. -/

theorem segments_flatten : ∀ xs : List Bytes, segments (xs.map List.length) xs.flatten = xs := by
  intro xs
  induction xs with
  | nil => rfl
  | cons a rest ih =>
    simp only [List.map_cons, List.flatten_cons, segments]
    rw [List.take_left, List.drop_left, ih]

theorem bucketMembers_mkBucket (ms : List (Bytes × Bytes)) : bucketMembers (mkBucket ms) = ms := by
  simp only [bucketMembers, mkBucket]
  have h1 : ms.map (fun m => m.1.length) = (ms.map Prod.fst).map List.length := by
    simp [List.map_map]
  have h2 : ms.map (fun m => m.2.length) = (ms.map Prod.snd).map List.length := by
    simp [List.map_map]
  rw [h1, h2, segments_flatten, segments_flatten, List.zip_map']
  simp

theorem findLoop_not_mem (key : Bytes) :
    ∀ (ms : List (Bytes × Bytes)) (i : Nat) (acc : Option (Nat × Bytes × Bytes)),
      key ∉ ms.map Prod.fst → findLoop key i ms acc = acc := by
  intro ms
  induction ms with
  | nil => intro i acc _; rfl
  | cons m rest ih =>
    intro i acc h
    simp only [List.map_cons, List.mem_cons, not_or] at h
    have hm : ¬ (m.1 = key) := fun he => h.1 he.symm
    simp only [findLoop, if_neg hm]
    exact ih _ _ h.2

theorem findLoop_mem (key : Bytes) :
    ∀ (ms : List (Bytes × Bytes)) (j : Nat) (v : Bytes),
      (ms.map Prod.fst).Nodup → ms.get? j = some (key, v) →
      ∀ (i : Nat) (acc : Option (Nat × Bytes × Bytes)),
        findLoop key i ms acc = some (i + j, key, v) := by
  intro ms
  induction ms with
  | nil => intro j v _ h; simp at h
  | cons m rest ih =>
    intro j v hnd hj i acc
    simp only [List.map_cons, List.nodup_cons] at hnd
    cases j with
    | zero =>
      have hm : m = (key, v) := by simpa using hj
      subst hm
      simp only [findLoop, if_pos rfl]
      rw [findLoop_not_mem key rest (i + 1) _ (by simpa using hnd.1)]
      simp
    | succ j' =>
      have h' : rest.get? j' = some (key, v) := by simpa using hj
      have hkm : key ∈ rest.map Prod.fst :=
        List.mem_map.mpr ⟨(key, v), List.get?_mem h', rfl⟩
      have hm1 : ¬ (m.1 = key) := fun he => hnd.1 (he ▸ hkm)
      simp only [findLoop, if_neg hm1]
      rw [ih j' v hnd.2 h' (i + 1) acc]
      have : i + 1 + j' = i + (j' + 1) := by omega
      rw [this]

theorem find_mkBucket_not_mem (ms : List (Bytes × Bytes)) (key : Bytes)
    (h : key ∉ ms.map Prod.fst) : find_in_bucket (mkBucket ms) key = none := by
  unfold find_in_bucket
  rw [bucketMembers_mkBucket]
  exact findLoop_not_mem key ms 0 none h

theorem find_mkBucket_mem (ms : List (Bytes × Bytes)) (j : Nat) (key v : Bytes)
    (hnd : (ms.map Prod.fst).Nodup) (hj : ms.get? j = some (key, v)) :
    find_in_bucket (mkBucket ms) key = some (j, key, v) := by
  unfold find_in_bucket
  rw [bucketMembers_mkBucket]
  simpa using findLoop_mem key ms j v hnd hj 0 none

theorem mem_fst_get? (ms : List (Bytes × Bytes)) (k : Bytes) (h : k ∈ ms.map Prod.fst) :
    ∃ j v, ms.get? j = some (k, v) := by
  obtain ⟨m, hm, hk⟩ := List.mem_map.mp h
  obtain ⟨n, hn⟩ := List.mem_iff_get?.mp hm
  exact ⟨n, m.2, by rw [hn, ← hk]⟩

theorem map_eraseIdx {α β : Type} (f : α → β) :
    ∀ (l : List α) (j : Nat), (l.eraseIdx j).map f = (l.map f).eraseIdx j := by
  intro l
  induction l with
  | nil => intro j; simp
  | cons a rest ih =>
    intro j
    cases j with
    | zero => simp [List.eraseIdx]
    | succ j' => simp [List.eraseIdx, ih]

theorem not_mem_eraseIdx_of_nodup {α : Type} :
    ∀ (l : List α) (j : Nat) (a : α), l.Nodup → l.get? j = some a → a ∉ l.eraseIdx j := by
  intro l
  induction l with
  | nil => intro j a _ h; simp at h
  | cons b rest ih =>
    intro j a hnd hj
    simp only [List.nodup_cons] at hnd
    cases j with
    | zero =>
      have hb : b = a := by simpa using hj
      subst hb
      simpa [List.eraseIdx] using hnd.1
    | succ j' =>
      have h' : rest.get? j' = some a := by simpa using hj
      have hmem : a ∈ rest := List.get?_mem h'
      simp only [List.eraseIdx, List.mem_cons, not_or]
      exact ⟨fun he => hnd.1 (he ▸ hmem), ih j' a hnd.2 h'⟩

theorem flatten_spliceOut :
    ∀ (xs : List Bytes) (j : Nat) (x : Bytes), xs.get? j = some x →
      spliceOut xs.flatten ((xs.map List.length).take j).sum x.length = (xs.eraseIdx j).flatten := by
  intro xs
  induction xs with
  | nil => intro j x h; simp at h
  | cons a rest ih =>
    intro j x h
    cases j with
    | zero =>
      have ha : a = x := by simpa using h
      subst ha
      simp only [List.map_cons, List.take_zero, List.sum_nil, List.flatten_cons,
        List.eraseIdx_zero, List.tail_cons, spliceOut, List.take_zero, List.nil_append,
        Nat.zero_add]
      exact List.drop_left a rest.flatten
    | succ j' =>
      have h' : rest.get? j' = some x := by simpa using h
      simp only [List.map_cons, List.take_succ_cons, List.sum_cons, List.flatten_cons,
        List.eraseIdx_cons_succ]
      rw [← ih j' x h']
      simp only [spliceOut, List.flatten_cons]
      rw [List.take_append, Nat.add_assoc, List.drop_append, List.append_assoc]

theorem lookupName_not_mem (key : Bytes) :
    ∀ ms : List (Bytes × Bytes), key ∉ ms.map Prod.fst → lookupName key ms = none := by
  intro ms
  induction ms with
  | nil => intro _; rfl
  | cons m rest ih =>
    intro h
    simp only [List.map_cons, List.mem_cons, not_or] at h
    have hm : ¬ (m.1 = key) := fun he => h.1 he.symm
    simp only [lookupName, if_neg hm]
    exact ih h.2

theorem lookupName_get? (key v : Bytes) :
    ∀ (ms : List (Bytes × Bytes)) (j : Nat),
      (ms.map Prod.fst).Nodup → ms.get? j = some (key, v) → lookupName key ms = some v := by
  intro ms
  induction ms with
  | nil => intro j _ h; simp at h
  | cons m rest ih =>
    intro j hnd hj
    simp only [List.map_cons, List.nodup_cons] at hnd
    cases j with
    | zero =>
      have hm : m = (key, v) := by simpa using hj
      subst hm
      simp [lookupName]
    | succ j' =>
      have h' : rest.get? j' = some (key, v) := by simpa using hj
      have hkm : key ∈ rest.map Prod.fst :=
        List.mem_map.mpr ⟨(key, v), List.get?_mem h', rfl⟩
      have hm1 : ¬ (m.1 = key) := fun he => hnd.1 (he ▸ hkm)
      simp only [lookupName, if_neg hm1]
      exact ih j' hnd.2 h'

theorem lookupName_eraseIdx (key k : Bytes) (hne : k ≠ key) :
    ∀ (ms : List (Bytes × Bytes)) (j : Nat) (v : Bytes), ms.get? j = some (key, v) →
      lookupName k (ms.eraseIdx j) = lookupName k ms := by
  intro ms
  induction ms with
  | nil => intro j v h; simp at h
  | cons m rest ih =>
    intro j v hj
    cases j with
    | zero =>
      have hm : m = (key, v) := by simpa using hj
      subst hm
      have : ¬ ((key, v).1 = k) := fun he => hne (he.symm)
      simp [List.eraseIdx, lookupName, this]
    | succ j' =>
      have h' : rest.get? j' = some (key, v) := by simpa using hj
      by_cases hm : m.1 = k
      · simp [List.eraseIdx, lookupName, hm]
      · simp only [List.eraseIdx_cons_succ, lookupName, if_neg hm]
        exact ih j' v h'

theorem find_value_mkBucket (ms : List (Bytes × Bytes)) (k : Bytes)
    (hnd : (ms.map Prod.fst).Nodup) :
    (find_in_bucket (mkBucket ms) k).map (fun r => r.2.2) = lookupName k ms := by
  by_cases hk : k ∈ ms.map Prod.fst
  · obtain ⟨j, v, hj⟩ := mem_fst_get? ms k hk
    rw [find_mkBucket_mem ms j k v hnd hj, lookupName_get? k v ms j hnd hj]
    rfl
  · rw [find_mkBucket_not_mem ms k hk, lookupName_not_mem k ms hk]
    rfl

/-- `remove_from_bucket` on a well-formed bucket removes exactly the found
member: the result is the encoding of the member list with index `j` erased. -/
theorem remove_mkBucket (ms : List (Bytes × Bytes)) (key : Bytes) (j : Nat) (v : Bytes)
    (hnd : (ms.map Prod.fst).Nodup) (hj : ms.get? j = some (key, v)) :
    remove_from_bucket (mkBucket ms) key = mkBucket (ms.eraseIdx j) := by
  have hjlen : j < ms.length := by
    obtain ⟨h, _⟩ := List.get?_eq_some.mp hj
    exact h
  simp only [remove_from_bucket, find_mkBucket_mem ms j key v hnd hj]
  by_cases h1 : get_bucket_size (mkBucket ms) = 1
  · rw [if_pos h1]
    have hlen : ms.length = 1 := h1
    obtain ⟨m, hm⟩ := List.length_eq_one.mp hlen
    subst hm
    have hj0 : j = 0 := by omega
    subst hj0
    rfl
  · rw [if_neg h1]
    have hfst : (ms.map Prod.fst).get? j = some key := by
      rw [List.get?_map, hj]; rfl
    have hsnd : (ms.map Prod.snd).get? j = some v := by
      rw [List.get?_map, hj]; rfl
    show Bucket.mk _ _ _ _ _ = mkBucket (ms.eraseIdx j)
    simp only [mkBucket]
    congr 1
    · show ms.length - 1 = (ms.eraseIdx j).length
      rw [List.length_eraseIdx, if_pos hjlen]
    · show (ms.map fun m => m.1.length).eraseIdx j = (ms.eraseIdx j).map fun m => m.1.length
      rw [map_eraseIdx]
    · show (ms.map fun m => m.2.length).eraseIdx j = (ms.eraseIdx j).map fun m => m.2.length
      rw [map_eraseIdx]
    · show spliceOut (mkBucket ms).keyBytes (sumTake (mkBucket ms).keyLens j) key.length
        = ((ms.eraseIdx j).map Prod.fst).flatten
      have hlens : (mkBucket ms).keyLens = (ms.map Prod.fst).map List.length := by
        simp only [mkBucket, List.map_map]; rfl
      have hbytes : (mkBucket ms).keyBytes = (ms.map Prod.fst).flatten := rfl
      rw [hlens, hbytes, sumTake, map_eraseIdx,
        flatten_spliceOut (ms.map Prod.fst) j key hfst]
    · show spliceOut (mkBucket ms).valBytes (sumTake (mkBucket ms).valLens j) v.length
        = ((ms.eraseIdx j).map Prod.snd).flatten
      have hlens : (mkBucket ms).valLens = (ms.map Prod.snd).map List.length := by
        simp only [mkBucket, List.map_map]; rfl
      have hbytes : (mkBucket ms).valBytes = (ms.map Prod.snd).flatten := rfl
      rw [hlens, hbytes, sumTake, map_eraseIdx,
        flatten_spliceOut (ms.map Prod.snd) j v hsnd]

/-- Claim C6: on any well-formed bucket (member names unique), removing a
name makes it unreadable, shrinks the member count by 1 exactly when the
name was a member, and every other member keeps its original value. -/
theorem C6_remove_from_bucket (ms : List (Bytes × Bytes)) (key : Bytes)
    (hnd : (ms.map Prod.fst).Nodup) :
    find_in_bucket (remove_from_bucket (mkBucket ms) key) key = none
    ∧ get_bucket_size (remove_from_bucket (mkBucket ms) key)
        = get_bucket_size (mkBucket ms) - (if key ∈ ms.map Prod.fst then 1 else 0)
    ∧ ∀ k, k ≠ key →
        (find_in_bucket (remove_from_bucket (mkBucket ms) key) k).map (fun r => r.2.2)
          = (find_in_bucket (mkBucket ms) k).map (fun r => r.2.2) := by
  by_cases hk : key ∈ ms.map Prod.fst
  · obtain ⟨j, v, hj⟩ := mem_fst_get? ms key hk
    have hjlen : j < ms.length := by
      obtain ⟨h, _⟩ := List.get?_eq_some.mp hj
      exact h
    have hfst : (ms.map Prod.fst).get? j = some key := by
      rw [List.get?_map, hj]; rfl
    have herase : ((ms.eraseIdx j).map Prod.fst) = (ms.map Prod.fst).eraseIdx j :=
      map_eraseIdx Prod.fst ms j
    have hnd' : ((ms.eraseIdx j).map Prod.fst).Nodup := by
      rw [herase]
      exact List.Nodup.sublist ((ms.map Prod.fst).eraseIdx_sublist j) hnd
    rw [remove_mkBucket ms key j v hnd hj]
    refine ⟨?_, ?_, ?_⟩
    · apply find_mkBucket_not_mem
      rw [herase]
      exact not_mem_eraseIdx_of_nodup (ms.map Prod.fst) j key hnd hfst
    · rw [if_pos hk]
      show (ms.eraseIdx j).length = ms.length - 1
      rw [List.length_eraseIdx, if_pos hjlen]
    · intro k hkk
      rw [find_value_mkBucket (ms.eraseIdx j) k hnd', find_value_mkBucket ms k hnd]
      exact lookupName_eraseIdx key k hkk ms j v hj
  · have hrm : remove_from_bucket (mkBucket ms) key = mkBucket ms := by
      unfold remove_from_bucket
      rw [find_mkBucket_not_mem ms key hk]
    rw [hrm]
    exact ⟨find_mkBucket_not_mem ms key hk, by simp [hk], fun k _ => rfl⟩

/-- Witness for C6: removing "a" from the two-member bucket
{("a","A"), ("b","B")} makes "a" unreadable. -/
theorem C6_remove_from_bucket_witness :
    find_in_bucket (remove_from_bucket (mkBucket [([97], [65]), ([98], [66])]) [97]) [97]
      = none :=
  (C6_remove_from_bucket [([97], [65]), ([98], [66])] [97] (by decide)).1

/-- Claim C5: `upsert_in_bucket` corrupts the bucket when it overwrites a
member that is not the last one: updating "a" (value "C") in the
well-formed two-member bucket {("a","A"), ("b","B")} leaves the length
counter of slot 0 an unwritten (uninitialized) cell — taken as 0 here — so
the produced bucket no longer contains the name "a" at all: reading "a"
back yields absent instead of "C", although the member count is still 2. -/
theorem C5_upsert_update_corrupts :
    find_in_bucket (upsert_in_bucket 0 (mkBucket [([97], [65]), ([98], [66])]) [97] [67]) [97]
      = none
    ∧ get_bucket_size (upsert_in_bucket 0 (mkBucket [([97], [65]), ([98], [66])]) [97] [67]) = 2
    ∧ (upsert_in_bucket 0 (mkBucket [([97], [65]), ([98], [66])]) [97] [67]).keyLens
      = [0, 1] := by decide

/-- Claim C8: a `paths_match` task over a collection that holds exactly one
bucket (a member "home/a" under a prefix "home/" it matches, empty
`previous`, `max_count` 10) emits nothing: the scan loop treats a scan
result of at most one bucket key as end-of-collection and exits before
processing it — and, with `previous` empty, it starts the scan at
`hash("")` rather than at the beginning of the collection. -/
theorem C8_match_misses_single_bucket :
    scan_one_collection_one_range 100 (fun _ => 5)
        [(5, mkBucket [([104, 111, 109, 101, 47, 97], [65])])]
        [104, 111, 109, 101, 47] [] 10
      = ([], 0) := by decide

end Ukv
